import Mathlib

/-!
Verification of the audio-steganography core (`src/app.py`): LSB embedding and
echo hiding over 16-bit PCM sample buffers.

Modelling conventions:
* A sample buffer on the LSB path is the `uint16` view of the samples
  (`samples.view(np.uint16)`), i.e. a `List Nat` of 16-bit patterns.
* Messages are lists of character codes (`List Nat`); the spec's Message data
  model restricts codes to the byte range 0–255, for which
  `format(ord(c), "08b")` is exactly the 8-bit MSB-first expansion.
* The string result "No hidden message found" is modelled as `none`; a decoded
  message is `some chars`.
* The echo path works on `float32` samples; it is modelled with exact rational
  arithmetic (`ℚ`).
-/

namespace AudioStego

/-- Character codes of the 3-character terminator string appended to every message. -/
def sentinel : List Nat := [35, 35, 35]

/-- MSB-first 8-bit expansion of one character code, as produced by
`format(ord(c), "08b")` on the Message data model's byte-range codes. -/
def toBits8 (c : Nat) : List Nat :=
  [c / 128 % 2, c / 64 % 2, c / 32 % 2, c / 16 % 2, c / 8 % 2, c / 4 % 2, c / 2 % 2, c % 2]

/-- Value of a big-endian bit list, as computed by `int("".join(byte), 2)`. -/
def fromBits (bs : List Nat) : Nat := bs.foldl (fun a b => 2 * a + b) 0

/-- Framed bitstream of a message: terminator appended, then each character
expanded to its 8 bits, concatenated in order. -/
def encodeBits (m : List Nat) : List Nat := (m ++ sentinel).flatMap toBits8

/-- One sample update of the LSB encode loop: `flat[i] = (flat[i] & 0xFFFE) | int(b)`. -/
def setLSB (s b : Nat) : Nat := (s &&& 65534) ||| b

/-- The LSB encode loop: overwrite the least-significant bit of sample `i`
with bit `i`; samples beyond the bitstream are untouched. -/
def embedBits : List Nat → List Nat → List Nat
  | buf, [] => buf
  | [], _ => []
  | s :: buf, b :: bits => setLSB s b :: embedBits buf bits

/-- `encode_lsb` on the uint16 sample view: append the terminator, expand to
bits, fail with `none` when the bitstream is longer than the buffer, otherwise
overwrite the least-significant bits of the leading samples. -/
def encode_lsb (buf : List Nat) (m : List Nat) : Option (List Nat) :=
  let bits := encodeBits m
  if bits.length > buf.length then none else some (embedBits buf bits)

/-- `encode_lsb` with the container step made explicit: `write_wav_bytes`
re-serializes the modified samples with the format parameters read from the
input, threaded through unchanged. -/
def encode_lsb_wav {P : Type} (buf : List Nat) (params : P) (m : List Nat) :
    Option (List Nat × P) :=
  (encode_lsb buf m).map (fun out => (out, params))

/-- The character-assembly loop of `decode_lsb`: take the bitstream 8 bits at a
time; stop with `none` ("No hidden message found") on a partial tail or a zero
byte; after each accepted character, if the accumulated characters end with the
terminator, return them with the terminator stripped. -/
def decodeBitsLsb (chars : List Nat) : List Nat → Option (List Nat)
  | b0 :: b1 :: b2 :: b3 :: b4 :: b5 :: b6 :: b7 :: rest =>
    let v := fromBits [b0, b1, b2, b3, b4, b5, b6, b7]
    if v = 0 then none
    else
      let chars' := chars ++ [v]
      if sentinel.isSuffixOf chars' then some (chars'.take (chars'.length - 3))
      else decodeBitsLsb chars' rest
  | _ => none

/-- `decode_lsb`: extract the least-significant bit of every sample in order
and run the character-assembly loop on the resulting bitstream. -/
def decode_lsb (buf : List Nat) : Option (List Nat) :=
  decodeBitsLsb [] (buf.map (fun s => s &&& 1))

/-- Character-level view of the assembly loop: the same control flow as
`decodeBitsLsb`, but consuming already-decoded characters. -/
def scanChars (chars : List Nat) : List Nat → Option (List Nat)
  | [] => none
  | c :: cs =>
    if c = 0 then none
    else
      let chars' := chars ++ [c]
      if sentinel.isSuffixOf chars' then some (chars'.take (chars'.length - 3))
      else scanChars chars' cs

/-! ### Bit-level facts about `setLSB` -/

theorem testBit_65534 (i : Nat) : (65534 : Nat).testBit (i + 1) = decide (i < 15) := by
  have h2 : (65534 : Nat) = 2 * 32767 := by norm_num
  have h3 : (32767 : Nat) = 2 ^ 15 - 1 := by norm_num
  rw [Nat.testBit_succ, h2, Nat.mul_div_cancel_left _ (by norm_num : (0:Nat) < 2), h3,
    Nat.testBit_two_pow_sub_one]

theorem setLSB_mod_two (s b : Nat) (hb : b < 2) : setLSB s b % 2 = b := by
  have h0 : (65534 : Nat).testBit 0 = false := by decide
  have h : (setLSB s b).testBit 0 = b.testBit 0 := by
    rw [setLSB, Nat.testBit_lor, Nat.testBit_land, h0, Bool.and_false, Bool.false_or]
  rw [Nat.testBit_zero, Nat.testBit_zero] at h
  have h' := decide_eq_decide.mp h
  omega

theorem setLSB_and_one (s b : Nat) (hb : b < 2) : setLSB s b &&& 1 = b := by
  rw [Nat.and_one_is_mod, setLSB_mod_two s b hb]

theorem setLSB_div_two (s b : Nat) (hs : s < 65536) (hb : b < 2) :
    setLSB s b / 2 = s / 2 := by
  apply Nat.eq_of_testBit_eq
  intro i
  rw [Nat.testBit_div_two, Nat.testBit_div_two, setLSB, Nat.testBit_lor, Nat.testBit_land]
  have hbbit : b.testBit (i + 1) = false := by
    rw [Nat.testBit_succ]
    have : b / 2 = 0 := by omega
    simp [this]
  rw [hbbit, Bool.or_false, testBit_65534]
  by_cases hi : i < 15
  · simp [hi]
  · have hs' : s.testBit (i + 1) = false := by
      apply Nat.testBit_lt_two_pow
      calc s < 65536 := hs
        _ = 2 ^ 16 := by norm_num
        _ ≤ 2 ^ (i + 1) := Nat.pow_le_pow_right (by norm_num) (by omega)
    simp [hi, hs']

/-! ### Structure of the framed bitstream -/

theorem length_flatMap_toBits8 (l : List Nat) : (l.flatMap toBits8).length = 8 * l.length := by
  induction l with
  | nil => rfl
  | cons c cs ih => simp [List.flatMap_cons, toBits8, ih]; ring

theorem length_encodeBits (m : List Nat) : (encodeBits m).length = 8 * (m.length + 3) := by
  rw [encodeBits, length_flatMap_toBits8]
  simp [sentinel]

theorem encodeBits_lt_two (m : List Nat) : ∀ b ∈ encodeBits m, b < 2 := by
  intro b hb
  rw [encodeBits, List.mem_flatMap] at hb
  obtain ⟨c, _, hc⟩ := hb
  simp only [toBits8, List.mem_cons, List.not_mem_nil, or_false] at hc
  rcases hc with h | h | h | h | h | h | h | h <;> omega

theorem fromBits_toBits8 (c : Nat) (hc : c < 256) : fromBits (toBits8 c) = c := by
  simp only [toBits8, fromBits, List.foldl]
  omega

/-! ### Positional facts about the LSB embed loop -/

theorem length_embedBits (buf bits : List Nat) : (embedBits buf bits).length = buf.length := by
  induction buf generalizing bits with
  | nil => cases bits <;> rfl
  | cons s buf ih => cases bits with
    | nil => rfl
    | cons b bs => simp [embedBits, ih]

theorem embedBits_getD_lt (buf bits : List Nat) (i : Nat) (hi : i < bits.length)
    (hlen : bits.length ≤ buf.length) :
    (embedBits buf bits).getD i 0 = setLSB (buf.getD i 0) (bits.getD i 0) := by
  induction buf generalizing bits i with
  | nil => simp only [List.length_nil, Nat.le_zero] at hlen; omega
  | cons s buf ih =>
    cases bits with
    | nil => simp at hi
    | cons b bs =>
      cases i with
      | zero => rfl
      | succ j =>
        simp only [embedBits, List.getD_cons_succ]
        exact ih bs j (by simpa using hi) (by simpa using hlen)

theorem embedBits_getD_ge (buf bits : List Nat) (i : Nat) (hi : bits.length ≤ i) :
    (embedBits buf bits).getD i 0 = buf.getD i 0 := by
  induction buf generalizing bits i with
  | nil => cases bits <;> rfl
  | cons s buf ih =>
    cases bits with
    | nil => rfl
    | cons b bs =>
      cases i with
      | zero => simp at hi
      | succ j =>
        simp only [embedBits, List.getD_cons_succ]
        exact ih bs j (by simpa using hi)

theorem embedBits_map_lsb (bits buf : List Nat) (hb : ∀ b ∈ bits, b < 2)
    (hlen : bits.length ≤ buf.length) :
    (embedBits buf bits).map (fun s => s &&& 1) =
      bits ++ (buf.drop bits.length).map (fun s => s &&& 1) := by
  induction bits generalizing buf with
  | nil => cases buf <;> simp [embedBits]
  | cons b bs ih =>
    cases buf with
    | nil => simp at hlen
    | cons s buf =>
      simp only [embedBits, List.map_cons, List.length_cons, List.drop_succ_cons]
      rw [setLSB_and_one s b (hb b (by simp)), ih buf (fun x hx => hb x (by simp [hx]))
        (by simpa using hlen)]
      rfl

/-! ### The character scan: where the terminator check first fires -/

theorem scanChars_nil (chars : List Nat) : scanChars chars [] = none := rfl

theorem scanChars_cons (chars : List Nat) (c : Nat) (cs : List Nat) :
    scanChars chars (c :: cs) =
      if c = 0 then none
      else if sentinel.isSuffixOf (chars ++ [c]) = true then
        some ((chars ++ [c]).take ((chars ++ [c]).length - 3))
      else scanChars (chars ++ [c]) cs := rfl

theorem decodeBitsLsb_cons8 (chars : List Nat) (b0 b1 b2 b3 b4 b5 b6 b7 : Nat)
    (rest : List Nat) :
    decodeBitsLsb chars (b0 :: b1 :: b2 :: b3 :: b4 :: b5 :: b6 :: b7 :: rest) =
      if fromBits [b0, b1, b2, b3, b4, b5, b6, b7] = 0 then none
      else if sentinel.isSuffixOf (chars ++ [fromBits [b0, b1, b2, b3, b4, b5, b6, b7]]) = true then
        some ((chars ++ [fromBits [b0, b1, b2, b3, b4, b5, b6, b7]]).take
          ((chars ++ [fromBits [b0, b1, b2, b3, b4, b5, b6, b7]]).length - 3))
      else decodeBitsLsb (chars ++ [fromBits [b0, b1, b2, b3, b4, b5, b6, b7]]) rest := rfl

theorem suffix_concat (l xs : List Nat) (y : Nat) (h : l <:+ xs ++ [y]) :
    l = [] ∨ (l.getLast? = some y ∧ l.dropLast <:+ xs) := by
  rcases l.eq_nil_or_concat with rfl | ⟨L, b, rfl⟩
  · exact Or.inl rfl
  · right
    obtain ⟨t, ht⟩ := h
    rw [List.concat_eq_append, ← List.append_assoc] at ht
    obtain ⟨h1, h2⟩ := List.append_inj' ht (by simp)
    obtain rfl : b = y := by simpa using h2
    refine ⟨by simp, ?_⟩
    rw [List.concat_eq_append, List.dropLast_concat]
    exact ⟨t, h1⟩

theorem getLast?_of_suffix (l p : List Nat) (hne : l ≠ []) (h : l <:+ p) :
    p.getLast? = l.getLast? := by
  obtain ⟨t, rfl⟩ := h
  rw [List.getLast?_append]
  cases hl : l.getLast? with
  | none => exact absurd (List.getLast?_eq_none_iff.mp hl) hne
  | some a => rfl

/-- No window of the scan over `p ++ sentinel` ends with the terminator before
the terminator itself is complete, provided `p` has no embedded `"###"` and
does not end with `'#'`. -/
theorem noEarlyFire (p : List Nat) (hsen : ¬ sentinel <:+: p) (hlast : p.getLast? ≠ some 35) :
    ∀ k, k < p.length + 2 → sentinel.isSuffixOf ((p ++ sentinel).take (k + 1)) = false := by
  intro k hk
  rw [Bool.eq_false_iff]
  intro hfire
  rw [List.isSuffixOf_iff_suffix] at hfire
  by_cases h1 : k + 1 ≤ p.length
  · rw [List.take_append_of_le_length h1] at hfire
    exact hsen (hfire.isInfix.trans (List.take_prefix (k + 1) p).isInfix)
  · by_cases h2 : k + 1 = p.length + 1
    · have hsplit : (p ++ sentinel).take (k + 1) = p ++ [35] := by
        have : p ++ sentinel = (p ++ [35]) ++ [35, 35] := by simp [sentinel]
        rw [this, h2, show p.length + 1 = (p ++ [35]).length by simp, List.take_left]
      rw [hsplit] at hfire
      rcases suffix_concat _ _ _ hfire with h | ⟨_, hdrop⟩
      · simp [sentinel] at h
      · have hdrop' : [35, 35] <:+ p := by simpa [sentinel] using hdrop
        exact hlast (by rw [getLast?_of_suffix _ _ (by simp) hdrop']; rfl)
    · have h3 : k + 1 = p.length + 2 := by omega
      have hsplit : (p ++ sentinel).take (k + 1) = (p ++ [35]) ++ [35] := by
        have : p ++ sentinel = ((p ++ [35]) ++ [35]) ++ [35] := by simp [sentinel]
        rw [this, h3, show p.length + 2 = ((p ++ [35]) ++ [35]).length by simp, List.take_left]
      rw [hsplit] at hfire
      rcases suffix_concat _ _ _ hfire with h | ⟨_, hdrop⟩
      · simp [sentinel] at h
      · have hdrop2 : ([35, 35] : List Nat) <:+ p ++ [35] := by simpa [sentinel] using hdrop
        rcases suffix_concat _ _ _ hdrop2 with h | ⟨_, hdrop3⟩
        · simp at h
        · have hdrop3' : [35] <:+ p := by simpa using hdrop3
          exact hlast (by rw [getLast?_of_suffix _ _ (by simp) hdrop3']; rfl)

/-- The scan consumes `ms`, then fires exactly when the appended terminator is
complete, returning the accumulated characters — whatever follows. -/
theorem scanChars_fires (ms : List Nat) : ∀ (chars tail : List Nat),
    (∀ c ∈ ms, c ≠ 0) →
    (∀ k, k < ms.length + 2 →
      sentinel.isSuffixOf (chars ++ (ms ++ sentinel).take (k + 1)) = false) →
    scanChars chars (ms ++ (sentinel ++ tail)) = some (chars ++ ms) := by
  induction ms with
  | nil =>
    intro chars tail _ hwin
    have h0 := hwin 0 (by omega)
    have h1 := hwin 1 (by omega)
    rw [show (([] : List Nat) ++ sentinel).take 1 = [35] from rfl] at h0
    rw [show (([] : List Nat) ++ sentinel).take 2 = [35, 35] from rfl] at h1
    rw [show ([] : List Nat) ++ (sentinel ++ tail) = 35 :: (35 :: (35 :: tail)) by
      simp [sentinel]]
    rw [scanChars_cons, if_neg (by omega : ¬ (35 : Nat) = 0), h0, if_neg (by simp)]
    rw [scanChars_cons, if_neg (by omega : ¬ (35 : Nat) = 0), List.append_assoc,
      show ([35] : List Nat) ++ [35] = [35, 35] from rfl, h1, if_neg (by simp)]
    rw [scanChars_cons, if_neg (by omega : ¬ (35 : Nat) = 0), List.append_assoc,
      show ([35, 35] : List Nat) ++ [35] = [35, 35, 35] from rfl]
    have hfire : sentinel.isSuffixOf (chars ++ [35, 35, 35]) = true :=
      List.isSuffixOf_iff_suffix.mpr ⟨chars, rfl⟩
    rw [hfire, if_pos rfl]
    have h3 : (chars ++ [35, 35, 35]).length - 3 = chars.length := by simp
    rw [h3, List.take_left, List.append_nil]
  | cons c ms ih =>
    intro chars tail hnz hwin
    rw [List.cons_append, scanChars_cons, if_neg (hnz c (by simp))]
    have h0 := hwin 0 (by omega)
    rw [List.cons_append, List.take_succ_cons, List.take_zero] at h0
    rw [h0, if_neg (by simp)]
    have harr : ∀ k, k < ms.length + 2 →
        sentinel.isSuffixOf ((chars ++ [c]) ++ (ms ++ sentinel).take (k + 1)) = false := by
      intro k hk
      have := hwin (k + 1) (by simp only [List.length_cons]; omega)
      rwa [List.cons_append, List.take_succ_cons, List.append_cons] at this
    rw [ih (chars ++ [c]) tail (fun x hx => hnz x (by simp [hx])) harr]
    simp

/-- Running the bit-level assembly on the bit expansion of `ms` (plus any junk
bits) agrees with the character-level scan whenever the scan succeeds. -/
theorem decodeBitsLsb_of_scanChars (ms : List Nat) : ∀ (chars junk r : List Nat),
    (∀ c ∈ ms, c < 256) → scanChars chars ms = some r →
    decodeBitsLsb chars (ms.flatMap toBits8 ++ junk) = some r := by
  induction ms with
  | nil => intro chars junk r _ hscan; rw [scanChars_nil] at hscan; exact absurd hscan (by simp)
  | cons c ms ih =>
    intro chars junk r hlt hscan
    rw [scanChars_cons] at hscan
    by_cases hc : c = 0
    · rw [if_pos hc] at hscan; exact absurd hscan (by simp)
    · rw [if_neg hc] at hscan
      have hexp : (c :: ms).flatMap toBits8 ++ junk =
          c / 128 % 2 :: c / 64 % 2 :: c / 32 % 2 :: c / 16 % 2 :: c / 8 % 2 :: c / 4 % 2 ::
            c / 2 % 2 :: c % 2 :: (ms.flatMap toBits8 ++ junk) := by
        simp [List.flatMap_cons, toBits8]
      rw [hexp, decodeBitsLsb_cons8]
      have hval : fromBits [c / 128 % 2, c / 64 % 2, c / 32 % 2, c / 16 % 2, c / 8 % 2,
          c / 4 % 2, c / 2 % 2, c % 2] = c := by
        have := fromBits_toBits8 c (hlt c (by simp))
        simpa [toBits8] using this
      simp only [hval, if_neg hc]
      by_cases hfire : sentinel.isSuffixOf (chars ++ [c]) = true
      · rw [if_pos hfire] at hscan ⊢
        exact hscan
      · rw [Bool.not_eq_true] at hfire
        rw [hfire] at hscan ⊢
        simp only [Bool.false_eq_true, if_false] at hscan ⊢
        exact ih (chars ++ [c]) junk r (fun x hx => hlt x (by simp [hx])) hscan

theorem encode_lsb_eq (buf m : List Nat) :
    encode_lsb buf m =
      if (encodeBits m).length > buf.length then none
      else some (embedBits buf (encodeBits m)) := rfl

theorem infix_of_append_singleton (l xs : List Nat) (x : Nat) (h : l <:+: xs ++ [x]) :
    l <:+: xs ∨ l <:+ xs ++ [x] := by
  obtain ⟨st, t, hst⟩ := h
  rcases t.eq_nil_or_concat with rfl | ⟨t', y, rfl⟩
  · exact Or.inr ⟨st, by simpa using hst⟩
  · left
    rw [List.concat_eq_append, ← List.append_assoc] at hst
    obtain ⟨h1, _⟩ := List.append_inj' hst (by simp)
    exact ⟨st, t', by simpa using h1⟩

/-- The assembly loop can only return a character list with no embedded
terminator: it fires at the first suffix occurrence and strips it. -/
theorem decodeBitsLsb_no_sentinel :
    ∀ (n : Nat) (bits chars r : List Nat), bits.length ≤ n → ¬ sentinel <:+: chars →
      decodeBitsLsb chars bits = some r → ¬ sentinel <:+: r := by
  intro n
  induction n with
  | zero =>
    intro bits chars r hn _ hdec
    obtain rfl : bits = [] := List.eq_nil_of_length_eq_zero (by omega)
    exact Option.noConfusion hdec
  | succ n ih =>
    intro bits chars r hn hchars hdec
    rcases bits with _ | ⟨b0, _ | ⟨b1, _ | ⟨b2, _ | ⟨b3, _ | ⟨b4, _ | ⟨b5, _ | ⟨b6, _ | ⟨b7, rest⟩⟩⟩⟩⟩⟩⟩⟩ <;>
      try exact Option.noConfusion hdec
    rw [decodeBitsLsb_cons8] at hdec
    set v := fromBits [b0, b1, b2, b3, b4, b5, b6, b7] with hv
    by_cases hz : v = 0
    · rw [if_pos hz] at hdec; exact absurd hdec (by simp)
    · rw [if_neg hz] at hdec
      by_cases hfire : sentinel.isSuffixOf (chars ++ [v]) = true
      · rw [if_pos hfire] at hdec
        obtain rfl : (chars ++ [v]).take ((chars ++ [v]).length - 3) = r := by
          simpa using hdec
        intro habs
        apply hchars
        rw [show (chars ++ [v]).length - 3 = chars.length + 1 - 3 by simp] at habs
        rw [List.take_append_of_le_length (by omega)] at habs
        exact habs.trans (List.take_prefix _ _).isInfix
      · rw [Bool.not_eq_true] at hfire
        rw [hfire] at hdec
        simp only [Bool.false_eq_true, if_false] at hdec
        refine ih rest (chars ++ [v]) r (by simp only [List.length_cons] at hn; omega) ?_ hdec
        intro habs
        rcases infix_of_append_singleton _ _ _ habs with h | h
        · exact hchars h
        · rw [← List.isSuffixOf_iff_suffix] at h
          rw [h] at hfire
          exact absurd hfire (by simp)

/-! ### Claim theorems: LSB path -/

/-- C1 counterexample: the round-trip claim as stated fails for the ASCII
message `"#"` (code 35) on a 32-sample buffer, although the capacity
hypothesis `8*(len(m)+3) <= number_of_samples` holds: decoding the encoded
buffer yields the empty message, not `"#"`. -/
theorem C1_lsb_roundtrip_counterexample :
    ¬ (∀ (buf m : List Nat), (∀ c ∈ m, 0 < c ∧ c < 128) →
        8 * (m.length + 3) ≤ buf.length →
        (encode_lsb buf m).bind decode_lsb = some m) := by
  intro h
  have := h (List.replicate 32 0) [35] (by decide) (by decide)
  exact absurd this (by decide)

/-- C1 (amended): LSB round-trip holds for every ASCII message with no NUL
character, not containing the substring `"###"`, and not ending in `'#'`,
on every buffer with `8*(len(m)+3) <= number_of_samples`. -/
theorem C1_lsb_roundtrip (buf m : List Nat)
    (hascii : ∀ c ∈ m, 0 < c ∧ c < 128)
    (hsen : ¬ sentinel <:+: m)
    (hlast : m.getLast? ≠ some 35)
    (hcap : 8 * (m.length + 3) ≤ buf.length) :
    ∃ out, encode_lsb buf m = some out ∧ decode_lsb out = some m := by
  refine ⟨embedBits buf (encodeBits m), ?_, ?_⟩
  · rw [encode_lsb_eq, if_neg (by rw [length_encodeBits]; omega)]
  · rw [decode_lsb, embedBits_map_lsb _ _ (encodeBits_lt_two m)
      (by rw [length_encodeBits]; omega)]
    rw [show encodeBits m = (m ++ sentinel).flatMap toBits8 from rfl]
    apply decodeBitsLsb_of_scanChars
    · intro c hc
      rcases List.mem_append.mp hc with h | h
      · exact lt_trans (hascii c h).2 (by omega)
      · simp only [sentinel, List.mem_cons, List.not_mem_nil, or_false] at h
        omega
    · have hscan := scanChars_fires m [] []
        (fun c hc => by have := (hascii c hc).1; omega)
        (by simpa using noEarlyFire m hsen hlast)
      simpa using hscan

/-- C1 witness: concrete instance of the amended round-trip for `"HI"` on a
40-sample buffer. -/
theorem C1_lsb_roundtrip_witness :
    ((∀ c ∈ ([72, 73] : List Nat), 0 < c ∧ c < 128) ∧
      ¬ sentinel <:+: ([72, 73] : List Nat) ∧
      ([72, 73] : List Nat).getLast? ≠ some 35 ∧
      8 * (([72, 73] : List Nat).length + 3) ≤ (List.replicate 40 0).length) ∧
    ∃ out, encode_lsb (List.replicate 40 0) [72, 73] = some out ∧
      decode_lsb out = some [72, 73] :=
  ⟨⟨by decide, by decide, by decide, by decide⟩,
    C1_lsb_roundtrip (List.replicate 40 0) [72, 73]
      (by decide) (by decide) (by decide) (by decide)⟩

/-- C2 counterexample: for the message `"A###B"` (body containing the literal
`"###"`), encoding then decoding returns `"A"`, not the original message:
terminator detection is first-occurrence, not trailing. -/
theorem C2_sentinel_counterexample :
    ¬ (∀ (buf m : List Nat), (∀ c ∈ m, 0 < c ∧ c < 128) → sentinel <:+: m →
        8 * (m.length + 3) ≤ buf.length →
        (encode_lsb buf m).bind decode_lsb = some m) := by
  intro h
  have := h (List.replicate 64 0) [65, 35, 35, 35, 66] (by decide) (by decide) (by decide)
  exact absurd this (by decide)

/-- C2 (amended): for a message `p ++ "###" ++ s` whose body contains the
literal `"###"` (with `p` before its first occurrence: no `"###"` inside `p`
and `p` not ending in `'#'`), encode followed by decode returns `p` — the part
of the message strictly before the first terminator occurrence — rather than
the original message: detection is first-occurrence. -/
theorem C2_sentinel_first_occurrence (buf p s : List Nat)
    (hp : ∀ c ∈ p, 0 < c ∧ c < 256) (hs : ∀ c ∈ s, c < 256)
    (hsen : ¬ sentinel <:+: p) (hlast : p.getLast? ≠ some 35)
    (hcap : 8 * ((p ++ sentinel ++ s).length + 3) ≤ buf.length) :
    ∃ out, encode_lsb buf (p ++ sentinel ++ s) = some out ∧
      decode_lsb out = some p ∧ p ≠ p ++ sentinel ++ s := by
  refine ⟨embedBits buf (encodeBits (p ++ sentinel ++ s)), ?_, ?_, by simp [sentinel]⟩
  · rw [encode_lsb_eq, if_neg (by rw [length_encodeBits]; omega)]
  · rw [decode_lsb, embedBits_map_lsb _ _ (encodeBits_lt_two _)
      (by rw [length_encodeBits]; omega)]
    rw [show encodeBits (p ++ sentinel ++ s) =
      ((p ++ sentinel ++ s) ++ sentinel).flatMap toBits8 from rfl]
    apply decodeBitsLsb_of_scanChars
    · intro c hc
      simp only [List.append_assoc, List.mem_append] at hc
      rcases hc with h | h | h | h
      · exact (hp c h).2
      · simp only [sentinel, List.mem_cons, List.not_mem_nil, or_false] at h
        omega
      · exact hs c h
      · simp only [sentinel, List.mem_cons, List.not_mem_nil, or_false] at h
        omega
    · have hscan := scanChars_fires p [] (s ++ sentinel)
        (fun c hc => by have := (hp c hc).1; omega)
        (by simpa using noEarlyFire p hsen hlast)
      rw [List.nil_append] at hscan
      rw [show (p ++ sentinel ++ s) ++ sentinel = p ++ (sentinel ++ (s ++ sentinel)) by
        simp [List.append_assoc]]
      exact hscan

/-- C2 witness: concrete instance with `p = "A"`, `s = "B"` on a 64-sample
buffer, i.e. message `"A###B"` decodes to `"A"` after encoding. -/
theorem C2_sentinel_first_occurrence_witness :
    ((∀ c ∈ ([65] : List Nat), 0 < c ∧ c < 256) ∧ (∀ c ∈ ([66] : List Nat), c < 256) ∧
      ¬ sentinel <:+: ([65] : List Nat) ∧ ([65] : List Nat).getLast? ≠ some 35 ∧
      8 * ((([65] : List Nat) ++ sentinel ++ [66]).length + 3) ≤ (List.replicate 64 0).length) ∧
    ∃ out, encode_lsb (List.replicate 64 0) ([65] ++ sentinel ++ [66]) = some out ∧
      decode_lsb out = some [65] ∧ ([65] : List Nat) ≠ [65] ++ sentinel ++ [66] :=
  ⟨⟨by decide, by decide, by decide, by decide, by decide⟩,
    C2_sentinel_first_occurrence (List.replicate 64 0) [65] [66]
      (by decide) (by decide) (by decide) (by decide) (by decide)⟩

/-- C4: LSB capacity boundary — with byte-range message characters, encoding
succeeds exactly when the framed bit length `8*(len(m)+3)` is at most the
number of samples (including equality), and yields the distinguished `none`
result (never an exception: the function is total) as soon as it exceeds it. -/
theorem C4_lsb_capacity (buf m : List Nat) (_hm : ∀ c ∈ m, c < 256) :
    (8 * (m.length + 3) ≤ buf.length → ∃ out, encode_lsb buf m = some out) ∧
    (buf.length < 8 * (m.length + 3) → encode_lsb buf m = none) := by
  constructor
  · intro h
    exact ⟨embedBits buf (encodeBits m),
      by rw [encode_lsb_eq, if_neg (by rw [length_encodeBits]; omega)]⟩
  · intro h
    rw [encode_lsb_eq, if_pos (by rw [length_encodeBits]; omega)]

/-- C4 witness: a 40-bit framed message on a 40-sample buffer encodes (exact
equality), and on a 39-sample buffer returns `none`. -/
theorem C4_lsb_capacity_witness :
    (∀ c ∈ ([72, 73] : List Nat), c < 256) ∧
    (∃ out, encode_lsb (List.replicate 40 0) [72, 73] = some out) ∧
    encode_lsb (List.replicate 39 0) [72, 73] = none :=
  ⟨by decide,
    (C4_lsb_capacity (List.replicate 40 0) [72, 73] (by decide)).1 (by decide),
    (C4_lsb_capacity (List.replicate 39 0) [72, 73] (by decide)).2 (by decide)⟩

/-- C6: LSB frame effect — on an accepted encode, every output sample below
the framed bit length keeps the upper 15 bits of the input sample (uint16
view) and carries the corresponding framed bit in its least-significant bit;
every sample at or beyond the framed bit length is unchanged; and the format
parameters are returned identical to the input's. -/
theorem C6_lsb_frame_effect {P : Type} (buf : List Nat) (params : P) (m : List Nat)
    (hwf : ∀ x ∈ buf, x < 65536)
    (hcap : 8 * (m.length + 3) ≤ buf.length) :
    ∃ out, encode_lsb_wav buf params m = some (out, params) ∧
      out.length = buf.length ∧
      (∀ i, i < 8 * (m.length + 3) →
        out.getD i 0 / 2 = buf.getD i 0 / 2 ∧
        out.getD i 0 % 2 = (encodeBits m).getD i 0) ∧
      (∀ i, 8 * (m.length + 3) ≤ i → out.getD i 0 = buf.getD i 0) := by
  refine ⟨embedBits buf (encodeBits m), ?_, length_embedBits buf _, ?_, ?_⟩
  · rw [encode_lsb_wav, encode_lsb_eq, if_neg (by rw [length_encodeBits]; omega)]
    rfl
  · intro i hi
    have hib : i < (encodeBits m).length := by rw [length_encodeBits]; omega
    have hlen : (encodeBits m).length ≤ buf.length := by rw [length_encodeBits]; omega
    have hmem : buf.getD i 0 ∈ buf := by
      rw [List.getD_eq_getElem buf 0 (by omega)]
      exact List.getElem_mem _
    have hbit : (encodeBits m).getD i 0 < 2 := by
      refine encodeBits_lt_two m _ ?_
      rw [List.getD_eq_getElem _ 0 hib]
      exact List.getElem_mem _
    rw [embedBits_getD_lt buf _ i hib hlen]
    exact ⟨setLSB_div_two _ _ (hwf _ hmem) hbit, setLSB_mod_two _ _ hbit⟩
  · intro i hi
    exact embedBits_getD_ge buf _ i (by rw [length_encodeBits]; omega)

/-- C6 witness: concrete instance on a 40-sample buffer of value 6 with
message `"HI"` and a unit parameter block. -/
theorem C6_lsb_frame_effect_witness :
    ((∀ x ∈ List.replicate 40 6, x < 65536) ∧
      8 * (([72, 73] : List Nat).length + 3) ≤ (List.replicate 40 6).length) ∧
    ∃ out, encode_lsb_wav (List.replicate 40 6) () [72, 73] = some (out, ()) ∧
      out.length = (List.replicate 40 6).length ∧
      (∀ i, i < 8 * (([72, 73] : List Nat).length + 3) →
        out.getD i 0 / 2 = (List.replicate 40 6).getD i 0 / 2 ∧
        out.getD i 0 % 2 = (encodeBits [72, 73]).getD i 0) ∧
      (∀ i, 8 * (([72, 73] : List Nat).length + 3) ≤ i →
        out.getD i 0 = (List.replicate 40 6).getD i 0) :=
  ⟨⟨by decide, by decide⟩,
    C6_lsb_frame_effect (List.replicate 40 6) () [72, 73] (by decide) (by decide)⟩

/-- C10: whenever `decode_lsb` returns an actual message (not the
"No hidden message found" outcome, modelled as `none`), the returned character
list never contains `"###"` as a substring: the terminator check fires at the
first suffix occurrence and strips it. -/
theorem C10_decode_lsb_no_sentinel (buf r : List Nat) (h : decode_lsb buf = some r) :
    ¬ sentinel <:+: r :=
  decodeBitsLsb_no_sentinel (buf.map (fun s => s &&& 1)).length _ [] r le_rfl
    (by simp [sentinel]) h

/-- C10 witness: a concrete stego buffer that decodes to `"HI"`, whose result
indeed contains no `"###"`. -/
theorem C10_decode_lsb_no_sentinel_witness :
    decode_lsb [0, 1, 0, 0, 1, 0, 0, 0, 0, 1, 0, 0, 1, 0, 0, 1,
      0, 0, 1, 0, 0, 0, 1, 1, 0, 0, 1, 0, 0, 0, 1, 1, 0, 0, 1, 0, 0, 0, 1, 1] =
      some [72, 73] ∧
    ¬ sentinel <:+: [72, 73] :=
  ⟨by decide,
    C10_decode_lsb_no_sentinel
      [0, 1, 0, 0, 1, 0, 0, 0, 0, 1, 0, 0, 1, 0, 0, 1,
        0, 0, 1, 0, 0, 0, 1, 1, 0, 0, 1, 0, 0, 0, 1, 1, 0, 0, 1, 0, 0, 0, 1, 1]
      [72, 73] (by decide)⟩

/-! ## Echo hiding (float path, modelled with exact rationals) -/

/-- Clip a sample to the signed 16-bit range and cast to `int16` (truncation
toward zero), as `np.clip(samples, -32768, 32767)` followed by `np.int16` in
`write_wav_bytes`. -/
def int16OfRat (q : ℚ) : Int :=
  if 0 ≤ max (-32768) (min 32767 q) then ⌊max (-32768) (min 32767 q)⌋
  else ⌈max (-32768) (min 32767 q)⌉

/-- `write_wav_bytes` at the sample level: clip and quantize every sample,
serializing with the format parameters unchanged. -/
def write_wav_bytes {P : Type} (samples : List ℚ) (params : P) : List Int × P :=
  (samples.map int16OfRat, params)

/-- The delay chosen for one bit: `d1` if the bit is 1 else `d0`. -/
def chunkDelay (d0 d1 : Nat) (b : Nat) : Nat := if b = 1 then d1 else d0

/-- Elementwise addition of `c` onto the leading elements of `out`
(`out[: len(c)] += c`). -/
def zipAdd : List ℚ → List ℚ → List ℚ
  | out, [] => out
  | [], _ :: _ => []
  | x :: out, y :: c => (x + y) :: zipAdd out c

/-- Slice addition `out[es : es + len(c)] += c`. -/
def addAt : List ℚ → Nat → List ℚ → List ℚ
  | out, 0, c => zipAdd out c
  | [], _ + 1, _ => []
  | x :: out, es + 1, c => x :: addAt out es c

/-- The per-bit loop of `encode_echo_simple`: for bit index `i`, the source
window is `[i*8192, min(i*8192 + 8192, len(samples) - max_delay))`; the loop
stops if the window is empty; the window's samples scaled by `alpha` are added
at the window shifted by the bit's delay, provided the shifted range stays
inside the buffer (otherwise that chunk contributes no echo). -/
def echoChunks (samples : List ℚ) (d0 d1 : Nat) (alpha : ℚ) :
    Nat → List Nat → List ℚ → List ℚ
  | _, [], out => out
  | i, b :: bits, out =>
    let start := i * 8192
    let stop := min (start + 8192) (samples.length - max d0 d1)
    if stop ≤ start then out
    else
      let chunk := (samples.drop start).take (stop - start)
      let echoStart := start + chunkDelay d0 d1 b
      if echoStart + chunk.length ≤ out.length then
        echoChunks samples d0 d1 alpha (i + 1) bits
          (addAt out echoStart (chunk.map (fun x => alpha * x)))
      else
        echoChunks samples d0 d1 alpha (i + 1) bits out

/-- `encode_echo_simple` before serialization: frame the message, check
capacity `len(bits)*chunk_size + max_delay <= len(samples)` (with
`chunk_size = 8192`), then run the echo loop on a copy of the input. -/
def encode_echo_out (samples : List ℚ) (m : List Nat) (d0 d1 : Nat) (alpha : ℚ) :
    Option (List ℚ) :=
  let bits := encodeBits m
  if bits.length * 8192 + max d0 d1 > samples.length then none
  else some (echoChunks samples d0 d1 alpha 0 bits samples)

/-- Full `encode_echo_simple`: the echo loop followed by `write_wav_bytes`. -/
def encode_echo_simple {P : Type} (samples : List ℚ) (params : P) (m : List Nat)
    (d0 d1 : Nat) (alpha : ℚ) : Option (List Int × P) :=
  (encode_echo_out samples m d0 d1 alpha).map (fun out => write_wav_bytes out params)

/-- Pointwise product sum of two sample windows (`np.sum(a * b)`). -/
def dot (a b : List ℚ) : ℚ := (List.zipWith (fun x y => x * y) a b).sum

/-- The difference signal of chunk `i` in `decode_echo_simple`:
`stego[start : end + max_delay] - original[start : end + max_delay]`. -/
def echoDiff (original stego : List ℚ) (d0 d1 : Nat) (i : Nat) : List ℚ :=
  List.zipWith (fun x y => x - y)
    ((stego.drop (i * 8192)).take (8192 + max d0 d1))
    ((original.drop (i * 8192)).take (8192 + max d0 d1))

/-- Correlation magnitude of chunk `i` at candidate delay `d`:
`abs(sum(orig_chunk * echo[d : d + len(orig_chunk)]))`. -/
def corrAt (original stego : List ℚ) (d0 d1 : Nat) (i : Nat) (d : Nat) : ℚ :=
  |dot ((original.drop (i * 8192)).take 8192)
    (((echoDiff original stego d0 d1 i).drop d).take
      ((original.drop (i * 8192)).take 8192).length)|

/-- The chunk loop of `decode_echo_simple` over `n` remaining chunk indices
starting at `i`: breaks when the extended window `end + max_delay` overruns the
shorter buffer, otherwise decides `bit = 1` exactly when `corr_d1 > corr_d0`
and records the diagnostic entry `(i, corr_d0, corr_d1, bit)`. -/
def decodeChunks (original stego : List ℚ) (d0 d1 : Nat) :
    Nat → Nat → List Nat × List (Nat × ℚ × ℚ × Nat)
  | _, 0 => ([], [])
  | i, n + 1 =>
    if i * 8192 + 8192 + max d0 d1 > min original.length stego.length then ([], [])
    else
      let c0 := corrAt original stego d0 d1 i d0
      let c1 := corrAt original stego d0 d1 i d1
      let bit : Nat := if c1 > c0 then 1 else 0
      let rest := decodeChunks original stego d0 d1 (i + 1) n
      (bit :: rest.1, (i, c0, c1, bit) :: rest.2)

/-- The character-assembly loop of `decode_echo_simple`: like the LSB one, but
additionally rejecting byte values above 127 as end of usable payload — an
explicit range check (`chr` cannot raise for values in 1..127, so the
surrounding `try`/`except` never fires). -/
def echoScanBits (chars : List Nat) : List Nat → Option (List Nat)
  | b0 :: b1 :: b2 :: b3 :: b4 :: b5 :: b6 :: b7 :: rest =>
    let v := fromBits [b0, b1, b2, b3, b4, b5, b6, b7]
    if v = 0 ∨ 127 < v then none
    else
      let chars' := chars ++ [v]
      if sentinel.isSuffixOf chars' then some (chars'.take (chars'.length - 3))
      else echoScanBits chars' rest
  | _ => none

/-- `decode_echo_simple`: compute `num_chunks = (min(len) - max_delay) // 8192`
(the Python floor division of a negative value yields an empty loop, matching
truncated Nat subtraction), run the chunk loop, then the character assembly;
return the message outcome, the diagnostics, and the raw bitstream. -/
def decode_echo_simple (original stego : List ℚ) (d0 d1 : Nat) :
    Option (List Nat) × List (Nat × ℚ × ℚ × Nat) × List Nat :=
  let numChunks := (min original.length stego.length - max d0 d1) / 8192
  let r := decodeChunks original stego d0 d1 0 numChunks
  (echoScanBits [] r.1, r.2, r.1)

theorem encode_echo_out_eq (samples : List ℚ) (m : List Nat) (d0 d1 : Nat) (alpha : ℚ) :
    encode_echo_out samples m d0 d1 alpha =
      if (encodeBits m).length * 8192 + max d0 d1 > samples.length then none
      else some (echoChunks samples d0 d1 alpha 0 (encodeBits m) samples) := rfl

theorem echoScanBits_cons8 (chars : List Nat) (b0 b1 b2 b3 b4 b5 b6 b7 : Nat)
    (rest : List Nat) :
    echoScanBits chars (b0 :: b1 :: b2 :: b3 :: b4 :: b5 :: b6 :: b7 :: rest) =
      if fromBits [b0, b1, b2, b3, b4, b5, b6, b7] = 0 ∨
          127 < fromBits [b0, b1, b2, b3, b4, b5, b6, b7] then none
      else if sentinel.isSuffixOf (chars ++ [fromBits [b0, b1, b2, b3, b4, b5, b6, b7]]) = true then
        some ((chars ++ [fromBits [b0, b1, b2, b3, b4, b5, b6, b7]]).take
          ((chars ++ [fromBits [b0, b1, b2, b3, b4, b5, b6, b7]]).length - 3))
      else echoScanBits (chars ++ [fromBits [b0, b1, b2, b3, b4, b5, b6, b7]]) rest := rfl

/-! ### Claim theorems: echo capacity (C5) -/

/-- C5: echo capacity — `encode_echo_simple` returns the Capacity Exceeded
result (`none`) exactly when `8*(len(m)+3) * 8192 + max(d0,d1)` exceeds the
number of samples; in particular a 2-character message with `d0=200, d1=400`
against a 50,000-sample buffer (required length 328,080) is rejected. -/
theorem C5_echo_capacity {P : Type} (samples : List ℚ) (params : P) (m : List Nat)
    (d0 d1 : Nat) (alpha : ℚ) (_hm : ∀ c ∈ m, c < 256) :
    (encode_echo_simple samples params m d0 d1 alpha = none ↔
      samples.length < 8 * (m.length + 3) * 8192 + max d0 d1) ∧
    encode_echo_simple (List.replicate 50000 (0 : ℚ)) params [72, 73] 200 400 alpha = none := by
  constructor
  · rw [encode_echo_simple, encode_echo_out_eq]
    split_ifs with h
    · rw [length_encodeBits] at h
      simp only [Option.map_none']
      constructor
      · intro _; omega
      · intro _; trivial
    · rw [length_encodeBits] at h
      simp only [Option.map_some']
      exact ⟨fun hh => absurd hh (by simp), fun hh => absurd hh (by omega)⟩
  · rw [encode_echo_simple, encode_echo_out_eq, if_pos]
    · rfl
    · rw [length_encodeBits]
      simp only [List.length_replicate, List.length_cons, List.length_nil]
      norm_num

/-- C5 witness: concrete instantiation of the capacity characterisation with
the spec's numbers. -/
theorem C5_echo_capacity_witness :
    (∀ c ∈ ([72, 73] : List Nat), c < 256) ∧
    ((encode_echo_simple (List.replicate 50000 (0 : ℚ)) () [72, 73] 200 400 (1/2) = none ↔
      (List.replicate 50000 (0 : ℚ)).length <
        8 * (([72, 73] : List Nat).length + 3) * 8192 + max 200 400) ∧
    encode_echo_simple (List.replicate 50000 (0 : ℚ)) () [72, 73] 200 400 (1/2) = none) :=
  ⟨by decide,
    C5_echo_capacity (List.replicate 50000 (0 : ℚ)) () [72, 73] 200 400 (1/2) (by decide)⟩

/-! ### Claim theorems: echo byte guard (C9) -/

/-- The echo assembly loop stops for good at a byte whose value is 0 or above
127: appending such a byte and ANY continuation (even one containing the
terminator) to a bitstream that has not yet produced a message still produces
the "No hidden message found" outcome. -/
theorem echoScanBits_stops (n : Nat) : ∀ (bits chars : List Nat)
    (b0 b1 b2 b3 b4 b5 b6 b7 : Nat) (rest : List Nat),
    bits.length ≤ n → bits.length % 8 = 0 →
    echoScanBits chars bits = none →
    (fromBits [b0, b1, b2, b3, b4, b5, b6, b7] = 0 ∨
      127 < fromBits [b0, b1, b2, b3, b4, b5, b6, b7]) →
    echoScanBits chars (bits ++ b0 :: b1 :: b2 :: b3 :: b4 :: b5 :: b6 :: b7 :: rest) = none := by
  induction n with
  | zero =>
    intro bits chars b0 b1 b2 b3 b4 b5 b6 b7 rest hn _ _ hbad
    obtain rfl : bits = [] := List.eq_nil_of_length_eq_zero (by omega)
    rw [List.nil_append, echoScanBits_cons8, if_pos hbad]
  | succ n ih =>
    intro bits chars b0 b1 b2 b3 b4 b5 b6 b7 rest hn h8 hnone hbad
    rcases bits with _ | ⟨a0, _ | ⟨a1, _ | ⟨a2, _ | ⟨a3, _ | ⟨a4, _ | ⟨a5, _ | ⟨a6, _ | ⟨a7, tl⟩⟩⟩⟩⟩⟩⟩⟩
    · rw [List.nil_append, echoScanBits_cons8, if_pos hbad]
    all_goals (try (simp only [List.length_cons, List.length_nil] at h8; omega))
    rw [echoScanBits_cons8] at hnone
    simp only [List.cons_append, echoScanBits_cons8]
    by_cases hb : fromBits [a0, a1, a2, a3, a4, a5, a6, a7] = 0 ∨
        127 < fromBits [a0, a1, a2, a3, a4, a5, a6, a7]
    · rw [if_pos hb]
    · rw [if_neg hb] at hnone ⊢
      by_cases hfire : sentinel.isSuffixOf
          (chars ++ [fromBits [a0, a1, a2, a3, a4, a5, a6, a7]]) = true
      · rw [if_pos hfire] at hnone
        exact absurd hnone (by simp)
      · rw [Bool.not_eq_true] at hfire
        rw [hfire] at hnone ⊢
        simp only [Bool.false_eq_true, if_false] at hnone ⊢
        exact ih tl _ b0 b1 b2 b3 b4 b5 b6 b7 rest
          (by simp only [List.length_cons] at hn; omega)
          (by simp only [List.length_cons] at h8; omega) hnone hbad

/-- C9: echo decode byte guard — the character assembly stops as soon as a
decoded byte value is 0 or above 127 (an explicit range check in the model,
never an exception), even when the terminator would appear later in the
stream, in which case the outcome is "No hidden message found"; and
`decode_echo_simple` always returns that character-assembly outcome of its raw
bitstream, alongside the full diagnostics list and the bitstream itself. -/
theorem C9_echo_byte_guard :
    (∀ (bits chars : List Nat) (b0 b1 b2 b3 b4 b5 b6 b7 : Nat) (rest : List Nat),
      bits.length % 8 = 0 →
      echoScanBits chars bits = none →
      (fromBits [b0, b1, b2, b3, b4, b5, b6, b7] = 0 ∨
        127 < fromBits [b0, b1, b2, b3, b4, b5, b6, b7]) →
      echoScanBits chars
        (bits ++ b0 :: b1 :: b2 :: b3 :: b4 :: b5 :: b6 :: b7 :: rest) = none) ∧
    ∀ (original stego : List ℚ) (d0 d1 : Nat),
      (decode_echo_simple original stego d0 d1).1 =
        echoScanBits [] (decode_echo_simple original stego d0 d1).2.2 :=
  ⟨fun bits chars b0 b1 b2 b3 b4 b5 b6 b7 rest h8 hnone hbad =>
    echoScanBits_stops bits.length bits chars b0 b1 b2 b3 b4 b5 b6 b7 rest le_rfl h8 hnone hbad,
  fun _ _ _ _ => rfl⟩

/-- C9 witness: a byte of value 128 stops decoding even though the full
terminator bit pattern follows it. -/
theorem C9_echo_byte_guard_witness :
    ((([] : List Nat).length % 8 = 0 ∧ echoScanBits [] [] = none ∧
      (fromBits [1, 0, 0, 0, 0, 0, 0, 0] = 0 ∨ 127 < fromBits [1, 0, 0, 0, 0, 0, 0, 0])) ∧
      echoScanBits [] (([] : List Nat) ++
        1 :: 0 :: 0 :: 0 :: 0 :: 0 :: 0 :: 0 :: encodeBits []) = none) ∧
    (decode_echo_simple [] [] 200 400).1 =
      echoScanBits [] (decode_echo_simple [] [] 200 400).2.2 :=
  ⟨⟨⟨by decide, by decide, by decide⟩,
    C9_echo_byte_guard.1 [] [] 1 0 0 0 0 0 0 0 (encodeBits [])
      (by decide) (by decide) (by decide)⟩,
    C9_echo_byte_guard.2 [] [] 200 400⟩

/-! ### Claim theorems: echo decode mechanics (C8) -/

theorem decodeChunks_succ (original stego : List ℚ) (d0 d1 i n : Nat) :
    decodeChunks original stego d0 d1 i (n + 1) =
      if i * 8192 + 8192 + max d0 d1 > min original.length stego.length then ([], [])
      else
        ((if corrAt original stego d0 d1 i d1 > corrAt original stego d0 d1 i d0
            then 1 else 0) :: (decodeChunks original stego d0 d1 (i + 1) n).1,
          (i, corrAt original stego d0 d1 i d0, corrAt original stego d0 d1 i d1,
            if corrAt original stego d0 d1 i d1 > corrAt original stego d0 d1 i d0
            then 1 else 0) :: (decodeChunks original stego d0 d1 (i + 1) n).2) := rfl

theorem decode_echo_simple_eq (original stego : List ℚ) (d0 d1 : Nat) :
    decode_echo_simple original stego d0 d1 =
      (echoScanBits [] (decodeChunks original stego d0 d1 0
          ((min original.length stego.length - max d0 d1) / 8192)).1,
        (decodeChunks original stego d0 d1 0
          ((min original.length stego.length - max d0 d1) / 8192)).2,
        (decodeChunks original stego d0 d1 0
          ((min original.length stego.length - max d0 d1) / 8192)).1) := rfl

theorem decodeChunks_spec (original stego : List ℚ) (d0 d1 : Nat) :
    ∀ (n i : Nat), (i + n) * 8192 + max d0 d1 ≤ min original.length stego.length →
      (decodeChunks original stego d0 d1 i n).1.length = n ∧
      (decodeChunks original stego d0 d1 i n).2.length = n ∧
      (∀ k, k < n →
        (decodeChunks original stego d0 d1 i n).1.getD k 0 =
          (if corrAt original stego d0 d1 (i + k) d1 > corrAt original stego d0 d1 (i + k) d0
            then 1 else 0) ∧
        (decodeChunks original stego d0 d1 i n).2.getD k (0, 0, 0, 0) =
          (i + k, corrAt original stego d0 d1 (i + k) d0,
            corrAt original stego d0 d1 (i + k) d1,
            if corrAt original stego d0 d1 (i + k) d1 > corrAt original stego d0 d1 (i + k) d0
            then 1 else 0)) := by
  intro n
  induction n with
  | zero => exact fun i _ => ⟨rfl, rfl, fun k hk => absurd hk (by omega)⟩
  | succ n ih =>
    intro i hcap
    have hguard : ¬ (i * 8192 + 8192 + max d0 d1 > min original.length stego.length) := by
      omega
    rw [decodeChunks_succ, if_neg hguard]
    obtain ⟨hl1, hl2, hk⟩ := ih (i + 1) (by omega)
    refine ⟨by simp [hl1], by simp [hl2], ?_⟩
    intro k hkn
    cases k with
    | zero => exact ⟨by simp, by simp⟩
    | succ k' =>
      have hrec := hk k' (by omega)
      have harith : i + (k' + 1) = i + 1 + k' := by omega
      exact ⟨by rw [List.getD_cons_succ, hrec.1, harith],
        by rw [List.getD_cons_succ, hrec.2, harith]⟩

theorem takeSliceEq (l : List ℚ) (L s t : Nat) (h : s + t ≤ L) :
    ((l.take L).drop s).take t = (l.drop s).take t := by
  rw [List.drop_take, List.take_take]
  congr 1
  omega

theorem corrAt_take (original stego : List ℚ) (d0 d1 i d : Nat)
    (h : i * 8192 + 8192 + max d0 d1 ≤ min original.length stego.length) :
    corrAt (original.take (min original.length stego.length))
      (stego.take (min original.length stego.length)) d0 d1 i d =
      corrAt original stego d0 d1 i d := by
  rw [corrAt, corrAt, echoDiff, echoDiff,
    takeSliceEq original _ _ _ (by omega), takeSliceEq stego _ _ _ (by omega),
    takeSliceEq original _ _ _ (by omega)]

theorem decodeChunks_take (original stego : List ℚ) (d0 d1 : Nat) :
    ∀ n i, decodeChunks original stego d0 d1 i n =
      decodeChunks (original.take (min original.length stego.length))
        (stego.take (min original.length stego.length)) d0 d1 i n := by
  have hL : min (original.take (min original.length stego.length)).length
      (stego.take (min original.length stego.length)).length =
      min original.length stego.length := by
    simp only [List.length_take]
    omega
  intro n
  induction n with
  | zero => exact fun i => rfl
  | succ n ih =>
    intro i
    rw [decodeChunks_succ, decodeChunks_succ, hL]
    by_cases hguard : i * 8192 + 8192 + max d0 d1 > min original.length stego.length
    · rw [if_pos hguard, if_pos hguard]
    · rw [if_neg hguard, if_neg hguard, ih (i + 1),
        corrAt_take original stego d0 d1 i d0 (by omega),
        corrAt_take original stego d0 d1 i d1 (by omega)]

/-- C8: echo decode mechanics — with `max(d0,d1)` at most the shorter buffer
length, `decode_echo_simple` produces exactly
`num_chunks = (min(len(original), len(stego)) - max(d0,d1)) / 8192` decided
bits and diagnostic entries; it silently truncates both buffers to the shorter
length (the result only depends on the leading `min` samples, rather than
failing on mismatched lengths); and for each chunk `i` the decided bit is 1
exactly when `corr_d1 > corr_d0` (so equality yields 0) with the diagnostic
entry `(i, corr_d0, corr_d1, bit)`. -/
theorem C8_echo_decode_mechanics (original stego : List ℚ) (d0 d1 : Nat)
    (hmd : max d0 d1 ≤ min original.length stego.length) :
    (decode_echo_simple original stego d0 d1).2.2.length =
      (min original.length stego.length - max d0 d1) / 8192 ∧
    (decode_echo_simple original stego d0 d1).2.1.length =
      (min original.length stego.length - max d0 d1) / 8192 ∧
    decode_echo_simple original stego d0 d1 =
      decode_echo_simple (original.take (min original.length stego.length))
        (stego.take (min original.length stego.length)) d0 d1 ∧
    (∀ i, i < (min original.length stego.length - max d0 d1) / 8192 →
      (decode_echo_simple original stego d0 d1).2.2.getD i 0 =
        (if corrAt original stego d0 d1 i d1 > corrAt original stego d0 d1 i d0
          then 1 else 0) ∧
      (decode_echo_simple original stego d0 d1).2.1.getD i (0, 0, 0, 0) =
        (i, corrAt original stego d0 d1 i d0, corrAt original stego d0 d1 i d1,
          if corrAt original stego d0 d1 i d1 > corrAt original stego d0 d1 i d0
          then 1 else 0)) := by
  have hL : min (original.take (min original.length stego.length)).length
      (stego.take (min original.length stego.length)).length =
      min original.length stego.length := by
    simp only [List.length_take]
    omega
  have hcap : (0 + (min original.length stego.length - max d0 d1) / 8192) * 8192 +
      max d0 d1 ≤ min original.length stego.length := by
    have := Nat.div_mul_le_self (min original.length stego.length - max d0 d1) 8192
    omega
  obtain ⟨hl1, hl2, hk⟩ := decodeChunks_spec original stego d0 d1 _ 0 hcap
  refine ⟨?_, ?_, ?_, ?_⟩
  · rw [decode_echo_simple_eq]
    exact hl1
  · rw [decode_echo_simple_eq]
    exact hl2
  · rw [decode_echo_simple_eq, decode_echo_simple_eq, hL,
      ← decodeChunks_take original stego d0 d1 _ 0]
  · intro i hi
    have := hk i hi
    rw [decode_echo_simple_eq]
    simpa using this

/-- C8 witness: concrete one-chunk instance (two 8592-sample buffers,
`d0=200, d1=400`, so `num_chunks = 1`). -/
theorem C8_echo_decode_mechanics_witness :
    max 200 400 ≤ min (List.replicate 8592 (0 : ℚ)).length
      (List.replicate 8592 (0 : ℚ)).length ∧
    ((decode_echo_simple (List.replicate 8592 (0 : ℚ)) (List.replicate 8592 (0 : ℚ))
        200 400).2.2.length =
      (min (List.replicate 8592 (0 : ℚ)).length (List.replicate 8592 (0 : ℚ)).length -
        max 200 400) / 8192 ∧
    (decode_echo_simple (List.replicate 8592 (0 : ℚ)) (List.replicate 8592 (0 : ℚ))
        200 400).2.1.length =
      (min (List.replicate 8592 (0 : ℚ)).length (List.replicate 8592 (0 : ℚ)).length -
        max 200 400) / 8192 ∧
    decode_echo_simple (List.replicate 8592 (0 : ℚ)) (List.replicate 8592 (0 : ℚ)) 200 400 =
      decode_echo_simple
        ((List.replicate 8592 (0 : ℚ)).take
          (min (List.replicate 8592 (0 : ℚ)).length (List.replicate 8592 (0 : ℚ)).length))
        ((List.replicate 8592 (0 : ℚ)).take
          (min (List.replicate 8592 (0 : ℚ)).length (List.replicate 8592 (0 : ℚ)).length))
        200 400 ∧
    (∀ i, i < (min (List.replicate 8592 (0 : ℚ)).length
        (List.replicate 8592 (0 : ℚ)).length - max 200 400) / 8192 →
      (decode_echo_simple (List.replicate 8592 (0 : ℚ)) (List.replicate 8592 (0 : ℚ))
          200 400).2.2.getD i 0 =
        (if corrAt (List.replicate 8592 (0 : ℚ)) (List.replicate 8592 (0 : ℚ)) 200 400 i 400 >
            corrAt (List.replicate 8592 (0 : ℚ)) (List.replicate 8592 (0 : ℚ)) 200 400 i 200
          then 1 else 0) ∧
      (decode_echo_simple (List.replicate 8592 (0 : ℚ)) (List.replicate 8592 (0 : ℚ))
          200 400).2.1.getD i (0, 0, 0, 0) =
        (i, corrAt (List.replicate 8592 (0 : ℚ)) (List.replicate 8592 (0 : ℚ)) 200 400 i 200,
          corrAt (List.replicate 8592 (0 : ℚ)) (List.replicate 8592 (0 : ℚ)) 200 400 i 400,
          if corrAt (List.replicate 8592 (0 : ℚ)) (List.replicate 8592 (0 : ℚ)) 200 400 i 400 >
              corrAt (List.replicate 8592 (0 : ℚ)) (List.replicate 8592 (0 : ℚ)) 200 400 i 200
            then 1 else 0))) :=
  ⟨by simp only [List.length_replicate]; norm_num,
    C8_echo_decode_mechanics (List.replicate 8592 (0 : ℚ)) (List.replicate 8592 (0 : ℚ))
      200 400 (by simp only [List.length_replicate]; norm_num)⟩

/-! ### Positional facts about the echo embed loop (C7) -/

theorem zipAdd_nil (out : List ℚ) : zipAdd out [] = out := by cases out <;> rfl

theorem addAt_zero (out c : List ℚ) : addAt out 0 c = zipAdd out c := by
  cases out <;> cases c <;> rfl

theorem length_zipAdd : ∀ (out c : List ℚ), (zipAdd out c).length = out.length
  | [], [] => rfl
  | [], _ :: _ => rfl
  | _ :: _, [] => by rw [zipAdd_nil]
  | x :: out, y :: c => by simp [zipAdd, length_zipAdd out c]

theorem length_addAt : ∀ (out : List ℚ) (es : Nat) (c : List ℚ),
    (addAt out es c).length = out.length
  | out, 0, c => by rw [addAt_zero]; exact length_zipAdd out c
  | [], _ + 1, _ => rfl
  | x :: out, es + 1, c => by simp [addAt, length_addAt out es c]

theorem zipAdd_getD : ∀ (out c : List ℚ) (j : Nat), c.length ≤ out.length →
    (zipAdd out c).getD j 0 = out.getD j 0 + (if j < c.length then c.getD j 0 else 0)
  | out, [], j, _ => by
    rw [zipAdd_nil]
    simp
  | [], _ :: _, j, h => by simp at h
  | x :: out, y :: c, 0, h => by simp [zipAdd]
  | x :: out, y :: c, j + 1, h => by
    simp only [zipAdd, List.getD_cons_succ, List.length_cons]
    rw [zipAdd_getD out c j (by simp only [List.length_cons] at h; omega)]
    by_cases hj : j < c.length
    · rw [if_pos hj, if_pos (by omega)]
    · rw [if_neg hj, if_neg (by omega)]

theorem addAt_getD : ∀ (out : List ℚ) (es : Nat) (c : List ℚ) (j : Nat),
    es + c.length ≤ out.length →
    (addAt out es c).getD j 0 =
      out.getD j 0 + (if es ≤ j ∧ j < es + c.length then c.getD (j - es) 0 else 0)
  | out, 0, c, j, h => by
    rw [addAt_zero, zipAdd_getD out c j (by omega)]
    by_cases hj : j < c.length
    · rw [if_pos hj, if_pos (by omega)]
      rfl
    · rw [if_neg hj, if_neg (by omega)]
  | [], es + 1, c, j, h => by
    simp only [List.length_nil, Nat.le_zero] at h
    omega
  | x :: out, es + 1, c, 0, h => by
    simp only [addAt, List.getD_cons_zero]
    rw [if_neg (by omega)]
    ring
  | x :: out, es + 1, c, j + 1, h => by
    simp only [addAt, List.getD_cons_succ]
    rw [addAt_getD out es c j (by simp only [List.length_cons] at h; omega)]
    by_cases hcond : es ≤ j ∧ j < es + c.length
    · rw [if_pos hcond, if_pos (by omega), show j + 1 - (es + 1) = j - es from by omega]
    · rw [if_neg hcond, if_neg (by omega)]

theorem getD_drop_take (l : List ℚ) (s t i : Nat) (hi : i < t) (hb : s + t ≤ l.length) :
    ((l.drop s).take t).getD i 0 = l.getD (s + i) 0 := by
  have h1 : i < ((l.drop s).take t).length := by
    simp only [List.length_take, List.length_drop]
    omega
  have h2 : s + i < l.length := by omega
  rw [List.getD_eq_getElem _ _ h1, List.getD_eq_getElem _ _ h2]
  rw [List.getElem_take, List.getElem_drop]

theorem getD_map_alpha (alpha : ℚ) (l : List ℚ) (i : Nat) (hi : i < l.length) :
    (l.map (fun x => alpha * x)).getD i 0 = alpha * l.getD i 0 := by
  rw [List.getD_eq_getElem _ _ (by simpa using hi), List.getD_eq_getElem _ _ hi,
    List.getElem_map]

theorem chunkDelay_le (d0 d1 b : Nat) : chunkDelay d0 d1 b ≤ max d0 d1 := by
  rw [chunkDelay]
  split_ifs
  · exact le_max_right d0 d1
  · exact le_max_left d0 d1

theorem echoChunks_nil (samples : List ℚ) (d0 d1 : Nat) (alpha : ℚ) (i : Nat)
    (out : List ℚ) : echoChunks samples d0 d1 alpha i [] out = out := rfl

theorem echoChunks_cons (samples : List ℚ) (d0 d1 : Nat) (alpha : ℚ) (i b : Nat)
    (bits : List Nat) (out : List ℚ) :
    echoChunks samples d0 d1 alpha i (b :: bits) out =
      if min (i * 8192 + 8192) (samples.length - max d0 d1) ≤ i * 8192 then out
      else
        if i * 8192 + chunkDelay d0 d1 b +
            ((samples.drop (i * 8192)).take
              (min (i * 8192 + 8192) (samples.length - max d0 d1) - i * 8192)).length ≤
            out.length then
          echoChunks samples d0 d1 alpha (i + 1) bits
            (addAt out (i * 8192 + chunkDelay d0 d1 b)
              (((samples.drop (i * 8192)).take
                (min (i * 8192 + 8192) (samples.length - max d0 d1) - i * 8192)).map
                (fun x => alpha * x)))
        else echoChunks samples d0 d1 alpha (i + 1) bits out := rfl

theorem echoChunks_cons_of_cap (samples : List ℚ) (d0 d1 : Nat) (alpha : ℚ) (i b : Nat)
    (bits : List Nat) (out : List ℚ) (hout : out.length = samples.length)
    (hcap : (i + (b :: bits).length) * 8192 + max d0 d1 ≤ samples.length) :
    echoChunks samples d0 d1 alpha i (b :: bits) out =
      echoChunks samples d0 d1 alpha (i + 1) bits
        (addAt out (i * 8192 + chunkDelay d0 d1 b)
          (((samples.drop (i * 8192)).take 8192).map (fun x => alpha * x))) := by
  simp only [List.length_cons] at hcap
  have hwin : i * 8192 + 8192 ≤ samples.length - max d0 d1 := by omega
  have hmin : min (i * 8192 + 8192) (samples.length - max d0 d1) = i * 8192 + 8192 :=
    min_eq_left hwin
  have hchunklen : ((samples.drop (i * 8192)).take 8192).length = 8192 := by
    simp only [List.length_take, List.length_drop]
    omega
  rw [echoChunks_cons, hmin, if_neg (by omega),
    show i * 8192 + 8192 - i * 8192 = 8192 from by omega, hchunklen,
    if_pos (by rw [hout]; have := chunkDelay_le d0 d1 b; omega)]

theorem echoChunks_getD (samples : List ℚ) (d0 d1 : Nat) (alpha : ℚ) :
    ∀ (bs : List Nat) (i : Nat) (out : List ℚ),
      out.length = samples.length →
      (i + bs.length) * 8192 + max d0 d1 ≤ samples.length →
      ∀ j, j < samples.length →
        (echoChunks samples d0 d1 alpha i bs out).getD j 0 =
          out.getD j 0 + ∑ k ∈ Finset.range bs.length,
            (if (i + k) * 8192 + chunkDelay d0 d1 (bs.getD k 0) ≤ j ∧
                j < (i + k) * 8192 + chunkDelay d0 d1 (bs.getD k 0) + 8192 then
              alpha * samples.getD (j - chunkDelay d0 d1 (bs.getD k 0)) 0
            else 0) := by
  intro bs
  induction bs with
  | nil =>
    intro i out hout hcap j hj
    rw [echoChunks_nil]
    simp
  | cons b bs ih =>
    intro i out hout hcap j hj
    have hdel := chunkDelay_le d0 d1 b
    have hlen8 : ((samples.drop (i * 8192)).take 8192).length = 8192 := by
      simp only [List.length_cons] at hcap
      simp only [List.length_take, List.length_drop]
      omega
    have hmaplen : (((samples.drop (i * 8192)).take 8192).map
        (fun x => alpha * x)).length = 8192 := by
      rw [List.length_map, hlen8]
    have haddlen : (addAt out (i * 8192 + chunkDelay d0 d1 b)
        (((samples.drop (i * 8192)).take 8192).map (fun x => alpha * x))).length =
        samples.length := by
      rw [length_addAt, hout]
    rw [echoChunks_cons_of_cap samples d0 d1 alpha i b bs out hout hcap]
    rw [ih (i + 1) _ haddlen
      (by simp only [List.length_cons] at hcap; omega) j hj]
    rw [addAt_getD out _ _ j
      (by rw [hmaplen, hout]; simp only [List.length_cons] at hcap; omega)]
    rw [hmaplen]
    have hsum : ∑ k ∈ Finset.range (b :: bs).length,
        (if (i + k) * 8192 + chunkDelay d0 d1 ((b :: bs).getD k 0) ≤ j ∧
            j < (i + k) * 8192 + chunkDelay d0 d1 ((b :: bs).getD k 0) + 8192 then
          alpha * samples.getD (j - chunkDelay d0 d1 ((b :: bs).getD k 0)) 0
        else 0) =
        (∑ k ∈ Finset.range bs.length,
          (if (i + 1 + k) * 8192 + chunkDelay d0 d1 (bs.getD k 0) ≤ j ∧
              j < (i + 1 + k) * 8192 + chunkDelay d0 d1 (bs.getD k 0) + 8192 then
            alpha * samples.getD (j - chunkDelay d0 d1 (bs.getD k 0)) 0
          else 0)) +
        (if i * 8192 + chunkDelay d0 d1 b ≤ j ∧
            j < i * 8192 + chunkDelay d0 d1 b + 8192 then
          alpha * samples.getD (j - chunkDelay d0 d1 b) 0
        else 0) := by
      rw [List.length_cons, Finset.sum_range_succ']
      have h1 : (∑ k ∈ Finset.range bs.length,
          (if (i + (k + 1)) * 8192 + chunkDelay d0 d1 ((b :: bs).getD (k + 1) 0) ≤ j ∧
              j < (i + (k + 1)) * 8192 + chunkDelay d0 d1 ((b :: bs).getD (k + 1) 0) + 8192 then
            alpha * samples.getD (j - chunkDelay d0 d1 ((b :: bs).getD (k + 1) 0)) 0
          else 0)) =
          ∑ k ∈ Finset.range bs.length,
            (if (i + 1 + k) * 8192 + chunkDelay d0 d1 (bs.getD k 0) ≤ j ∧
                j < (i + 1 + k) * 8192 + chunkDelay d0 d1 (bs.getD k 0) + 8192 then
              alpha * samples.getD (j - chunkDelay d0 d1 (bs.getD k 0)) 0
            else 0) := by
        apply Finset.sum_congr rfl
        intro k _
        rw [List.getD_cons_succ, show i + (k + 1) = i + 1 + k from by omega]
      rw [h1, List.getD_cons_zero, show i + 0 = i from by omega]
    rw [hsum]
    have hterm : (if i * 8192 + chunkDelay d0 d1 b ≤ j ∧
          j < i * 8192 + chunkDelay d0 d1 b + 8192 then
        (((samples.drop (i * 8192)).take 8192).map (fun x => alpha * x)).getD
          (j - (i * 8192 + chunkDelay d0 d1 b)) 0
      else 0) =
        (if i * 8192 + chunkDelay d0 d1 b ≤ j ∧
            j < i * 8192 + chunkDelay d0 d1 b + 8192 then
          alpha * samples.getD (j - chunkDelay d0 d1 b) 0
        else 0) := by
      by_cases hcond : i * 8192 + chunkDelay d0 d1 b ≤ j ∧
          j < i * 8192 + chunkDelay d0 d1 b + 8192
      · rw [if_pos hcond, if_pos hcond]
        have hidx : j - (i * 8192 + chunkDelay d0 d1 b) < 8192 := by omega
        rw [getD_map_alpha _ _ _ (by rw [hlen8]; exact hidx),
          getD_drop_take samples _ _ _ hidx
            (by simp only [List.length_cons] at hcap; omega)]
        congr 2
        omega
      · rw [if_neg hcond, if_neg hcond]
    rw [hterm]
    ring

theorem length_echoChunks (samples : List ℚ) (d0 d1 : Nat) (alpha : ℚ) :
    ∀ (bs : List Nat) (i : Nat) (out : List ℚ),
      (echoChunks samples d0 d1 alpha i bs out).length = out.length := by
  intro bs
  induction bs with
  | nil => intro i out; rw [echoChunks_nil]
  | cons b bs ih =>
    intro i out
    rw [echoChunks_cons]
    split_ifs with h1 h2
    · rfl
    · rw [ih, length_addAt]
    · rw [ih]

theorem int16OfRat_bounds (q : ℚ) : -32768 ≤ int16OfRat q ∧ int16OfRat q ≤ 32767 := by
  rw [int16OfRat]
  set r := max (-32768 : ℚ) (min 32767 q) with hr
  have h1 : (-32768 : ℚ) ≤ r := le_max_left _ _
  have h2 : r ≤ 32767 := max_le (by norm_num) (min_le_left _ _)
  split_ifs with h
  · constructor
    · exact Int.le_floor.mpr (by push_cast; linarith)
    · by_contra hc
      push_neg at hc
      have := Int.le_floor.mp (by omega : (32768 : ℤ) ≤ ⌊r⌋)
      push_cast at this
      linarith
  · constructor
    · by_contra hc
      push_neg at hc
      have := Int.ceil_le.mp (by omega : ⌈r⌉ ≤ -32769)
      push_cast at this
      linarith
    · exact Int.ceil_le.mpr (by push_cast; linarith)

/-- C7 (amended): echo encode frame effect — on an accepted call the loop's
output buffer is, at every position, the input sample plus the sum of the
`alpha`-scaled echoes of the chunks whose shifted window covers that position
(window `[k*8192 + delay_k, k*8192 + delay_k + 8192)` with `delay_k = d1` for
bit 1 else `d0`); every sample at or beyond
`len(bits)*8192 + max(d0,d1)` is unmodified (but the last chunk's echo spills
up to its delay past the last chunk boundary — chunk indices at or beyond the
bit count are NOT all untouched); and the serialized output is clipped to the
signed 16-bit range. -/
theorem C7_echo_encode_effect {P : Type} (samples : List ℚ) (params : P) (m : List Nat)
    (d0 d1 : Nat) (alpha : ℚ)
    (hcap : 8 * (m.length + 3) * 8192 + max d0 d1 ≤ samples.length) :
    ∃ out, encode_echo_out samples m d0 d1 alpha = some out ∧
      encode_echo_simple samples params m d0 d1 alpha = some (out.map int16OfRat, params) ∧
      out.length = samples.length ∧
      (∀ j, j < samples.length →
        out.getD j 0 = samples.getD j 0 + ∑ k ∈ Finset.range (8 * (m.length + 3)),
          (if k * 8192 + chunkDelay d0 d1 ((encodeBits m).getD k 0) ≤ j ∧
              j < k * 8192 + chunkDelay d0 d1 ((encodeBits m).getD k 0) + 8192 then
            alpha * samples.getD (j - chunkDelay d0 d1 ((encodeBits m).getD k 0)) 0
          else 0)) ∧
      (∀ j, 8 * (m.length + 3) * 8192 + max d0 d1 ≤ j → j < samples.length →
        out.getD j 0 = samples.getD j 0) ∧
      (∀ q ∈ out.map int16OfRat, -32768 ≤ q ∧ q ≤ 32767) := by
  have hlen : (encodeBits m).length = 8 * (m.length + 3) := length_encodeBits m
  have hcap' : (0 + (encodeBits m).length) * 8192 + max d0 d1 ≤ samples.length := by
    rw [hlen]
    omega
  refine ⟨echoChunks samples d0 d1 alpha 0 (encodeBits m) samples, ?_, ?_, ?_, ?_, ?_, ?_⟩
  · rw [encode_echo_out_eq, if_neg (by rw [hlen]; omega)]
  · rw [encode_echo_simple, encode_echo_out_eq, if_neg (by rw [hlen]; omega)]
    rfl
  · rw [length_echoChunks]
  · intro j hj
    rw [echoChunks_getD samples d0 d1 alpha (encodeBits m) 0 samples rfl hcap' j hj]
    simp only [hlen, Nat.zero_add]
  · intro j hj1 hj2
    rw [echoChunks_getD samples d0 d1 alpha (encodeBits m) 0 samples rfl hcap' j hj2]
    have hz : ∑ k ∈ Finset.range (encodeBits m).length,
        (if (0 + k) * 8192 + chunkDelay d0 d1 ((encodeBits m).getD k 0) ≤ j ∧
            j < (0 + k) * 8192 + chunkDelay d0 d1 ((encodeBits m).getD k 0) + 8192 then
          alpha * samples.getD (j - chunkDelay d0 d1 ((encodeBits m).getD k 0)) 0
        else 0) = 0 := by
      apply Finset.sum_eq_zero
      intro k hk
      have hk' := Finset.mem_range.mp hk
      rw [hlen] at hk'
      have hd := chunkDelay_le d0 d1 ((encodeBits m).getD k 0)
      rw [if_neg (by omega)]
    rw [hz, add_zero]
  · intro q hq
    rw [List.mem_map] at hq
    obtain ⟨x, _, rfl⟩ := hq
    exact int16OfRat_bounds x

/-- C7 counterexample: the clause "samples in chunks beyond the last encoded
bit are left unmodified" is false: on a constant buffer of 197,008 samples of
value 1 with the empty message (24 framed bits), `d0=200, d1=400, alpha=1/2`,
the sample at index `24*8192 = 196608` — inside chunk 24, beyond the last
encoded bit 23 — is changed from 1 to 3/2 by the spill of the last chunk's
echo. -/
theorem C7_echo_encode_counterexample :
    ¬ (∀ (samples : List ℚ) (m : List Nat) (d0 d1 : Nat) (alpha : ℚ) (out : List ℚ),
        encode_echo_out samples m d0 d1 alpha = some out →
        ∀ j, 8 * (m.length + 3) * 8192 ≤ j → j < samples.length →
          out.getD j 0 = samples.getD j 0) := by
  intro h
  obtain ⟨out, henc, _, hlen, hform, _, _⟩ :=
    C7_echo_encode_effect (List.replicate 197008 (1 : ℚ)) () [] 200 400 (1/2)
      (by simp only [List.length_replicate, List.length_nil]; norm_num)
  have hspill := h _ _ _ _ _ _ henc 196608
    (by simp only [List.length_nil]; norm_num)
    (by simp only [List.length_replicate]; norm_num)
  have hval := hform 196608 (by simp only [List.length_replicate]; norm_num)
  have hget : ∀ i, i < 197008 → (List.replicate 197008 (1 : ℚ)).getD i 0 = 1 := by
    intro i hi
    rw [List.getD_eq_getElem _ _ (by rw [List.length_replicate]; exact hi),
      List.getElem_replicate]
  have hb23 : (encodeBits []).getD 23 0 = 1 := by decide
  have hrange : 8 * (([] : List Nat).length + 3) = 24 := by simp
  rw [hrange] at hval
  have hsum : (∑ k ∈ Finset.range 24,
      (if k * 8192 + chunkDelay 200 400 ((encodeBits []).getD k 0) ≤ 196608 ∧
          196608 < k * 8192 + chunkDelay 200 400 ((encodeBits []).getD k 0) + 8192 then
        (1/2 : ℚ) * (List.replicate 197008 (1 : ℚ)).getD
          (196608 - chunkDelay 200 400 ((encodeBits []).getD k 0)) 0
      else 0)) = 1/2 := by
    rw [Finset.sum_eq_single_of_mem 23 (by decide)]
    · rw [hb23, show chunkDelay 200 400 1 = 400 from rfl, if_pos (by norm_num),
        hget 196208 (by norm_num)]
      norm_num
    · intro c hc hne
      have hd := chunkDelay_le 200 400 ((encodeBits []).getD c 0)
      have hc' := Finset.mem_range.mp hc
      rw [if_neg (by omega)]
  rw [hsum, hget 196608 (by norm_num)] at hval
  rw [hspill, hget 196608 (by norm_num)] at hval
  norm_num at hval

/-- C7 witness: concrete instance of the amended frame-effect theorem on a
197,008-sample constant buffer with the empty message. -/
theorem C7_echo_encode_effect_witness :
    8 * (([] : List Nat).length + 3) * 8192 + max 200 400 ≤
      (List.replicate 197008 (1 : ℚ)).length ∧
    ∃ out, encode_echo_out (List.replicate 197008 (1 : ℚ)) [] 200 400 (1/2) = some out ∧
      encode_echo_simple (List.replicate 197008 (1 : ℚ)) () [] 200 400 (1/2) =
        some (out.map int16OfRat, ()) ∧
      out.length = (List.replicate 197008 (1 : ℚ)).length ∧
      (∀ j, j < (List.replicate 197008 (1 : ℚ)).length →
        out.getD j 0 = (List.replicate 197008 (1 : ℚ)).getD j 0 +
          ∑ k ∈ Finset.range (8 * (([] : List Nat).length + 3)),
            (if k * 8192 + chunkDelay 200 400 ((encodeBits []).getD k 0) ≤ j ∧
                j < k * 8192 + chunkDelay 200 400 ((encodeBits []).getD k 0) + 8192 then
              (1/2 : ℚ) * (List.replicate 197008 (1 : ℚ)).getD
                (j - chunkDelay 200 400 ((encodeBits []).getD k 0)) 0
            else 0)) ∧
      (∀ j, 8 * (([] : List Nat).length + 3) * 8192 + max 200 400 ≤ j →
        j < (List.replicate 197008 (1 : ℚ)).length →
        out.getD j 0 = (List.replicate 197008 (1 : ℚ)).getD j 0) ∧
      (∀ q ∈ out.map int16OfRat, -32768 ≤ q ∧ q ≤ 32767) :=
  ⟨by simp only [List.length_replicate, List.length_nil]; norm_num,
    C7_echo_encode_effect (List.replicate 197008 (1 : ℚ)) () [] 200 400 (1/2)
      (by simp only [List.length_replicate, List.length_nil]; norm_num)⟩

end AudioStego
